import Mathlib

/-!
A shallow embedding of the Exposure Notification key-matching core
(`matching_helper.cc`, `prefix_id_map.cc`, `key_file_parser.cc`,
`matchingjni.cc`, `constants.h`) and proofs of the specification claims.

Bytes are naturals (< 256 where it matters); byte buffers are `List Nat`.
The OpenSSL primitives (HKDF-SHA256, AES-128-ECB) and the nanopb wire-format
layer are not part of the sources; following the specification they are
modelled abstractly (HKDF/AES as parameters, the wire format from the spec's
description of the length-delimited tagged record stream).
-/

set_option maxRecDepth 100000

namespace Exposure

/-- A byte buffer: each entry is one byte (a natural; well-formed buffers
have entries < 256). -/
abbrev Bytes := List Nat

/-! ## Constants from constants.h -/

def kRpikLength : Nat := 16

def kTekLength : Nat := 16

def kIdLength : Nat := 16

def kIdPerKey : Nat := 144

def kHkdfInfoLength : Nat := 7

/-- UTF-8 bytes of "EN-RPIK" (constants.h, kHkdfInfo). -/
def kHkdfInfo : Bytes := [69, 78, 45, 82, 80, 73, 75]

def kRpiPaddedDataLength : Nat := 12

/-- UTF-8 bytes of "EN-RPI" followed by six zero bytes
(constants.h, kRpiPaddedData; only the first 12 bytes are copied). -/
def kRpiPaddedData : Bytes := [69, 78, 45, 82, 80, 73, 0, 0, 0, 0, 0, 0]

/-- Size of the prefix_end_index table (prefix_id_map.h, kIdPrefixIndexSize). -/
def kIdPrefixIndexSize : Nat := 65536

/-- Little-endian 4-byte encoding of a 32-bit value, as produced by storing a
uint32 on a little-endian host (the code statically asserts little-endian). -/
def le32 (n : Nat) : Bytes :=
  [n % 256, n / 256 % 256, n / 65536 % 256, n / 16777216 % 256]

/-! ## PrefixIdMap (prefix_id_map.cc) -/

/-- GetPrefixInner: memcpy of the first two bytes of an id into a uint16 on a
little-endian host. Out-of-range reads (ids shorter than 2) default to 0. -/
def getPrefix (id : Bytes) : Nat := id.getD 0 0 + 256 * id.getD 1 0

/-- The comparator `Compare` of prefix_id_map.cc orders records strictly by
their 16-bit prefix; std::sort leaves the order within one prefix
unspecified. We realise the sort with mergeSort on the non-strict
prefix order, one valid outcome of std::sort with that comparator. -/
def sortByPrefix (recs : List Bytes) : List Bytes :=
  recs.mergeSort (fun a b => getPrefix a ≤ getPrefix b)

/-- One execution of the inner while loop of the PrefixIdMap constructor:
"while (last_prefix < prefix) prefix_end_index[last_prefix++] = i" writes i
into every slot in [lp, hi) and leaves last_prefix at max lp hi. -/
def fillUpTo (A : Nat → Nat) (lo hi v : Nat) : Nat → Nat :=
  fun p => if lo ≤ p ∧ p < hi then v else A p

/-- The outer for loop of the PrefixIdMap constructor, processing record i = the
position of the record in the sorted vector, threading the table and the
last_prefix cursor. -/
def buildPrefixLoop : List Bytes → Nat → ((Nat → Nat) × Nat) → ((Nat → Nat) × Nat)
  | [], _, st => st
  | r :: rest, i, (A, lp) =>
      buildPrefixLoop rest (i + 1) (fillUpTo A lp (getPrefix r) i, max lp (getPrefix r))

/-- The prefix_end_index table built from the (already sorted) records: the for
loop over the records followed by the tail fill
"while (last_prefix < kIdPrefixIndexSize) prefix_end_index[last_prefix++] = n".
The table starts zeroed (memset 0). -/
def mkPrefixEnd (recs : List Bytes) : Nat → Nat :=
  let st := buildPrefixLoop recs 0 ((fun _ => 0), 0)
  fillUpTo st.1 st.2 kIdPrefixIndexSize recs.length

/-- The state of a PrefixIdMap after construction (prefix_id_map.h). -/
structure PrefixIdMap where
  scan_records : List Bytes
  prefix_end_index : Nat → Nat
  scan_record_size : Nat

/-- The PrefixIdMap constructor: copy the records, sort them by 16-bit
little-endian prefix, build prefix_end_index by the forward sweep. -/
def PrefixIdMap.build (records : List Bytes) : PrefixIdMap :=
  let sorted := sortByPrefix records
  { scan_records := sorted
    prefix_end_index := mkPrefixEnd sorted
    scan_record_size := records.length }

/-- The body of the linear scan of GetIdIndex, structurally recursive on the
number of positions left to examine. -/
def scanLoopAux (recs : List Bytes) (id : Bytes) : Nat → Nat → Int
  | _, 0 => -1
  | start_index, rem + 1 =>
      if (recs.getD start_index []).take kIdLength = id.take kIdLength then
        Int.ofNat start_index
      else
        scanLoopAux recs id (start_index + 1) rem

/-- The linear scan of GetIdIndex over positions [start_index, end_index):
memcmp of the first kIdLength bytes, first match wins, else -1. -/
def scanLoop (recs : List Bytes) (id : Bytes) (start_index end_index : Nat) : Int :=
  scanLoopAux recs id start_index (end_index - start_index)

/-- PrefixIdMap::GetIdIndex: narrow by the 2-byte prefix via prefix_end_index,
then scan the bucket linearly comparing all 16 bytes; -1 means NOT_FOUND. -/
def PrefixIdMap.GetIdIndex (m : PrefixIdMap) (id : Bytes) : Int :=
  let pfx := getPrefix id
  let start_index := if pfx > 0 then m.prefix_end_index (pfx - 1) else 0
  let end_index := m.prefix_end_index pfx
  scanLoop m.scan_records id start_index end_index

/-! ## Lemmas about the prefix table -/

/-- The number of records whose 16-bit prefix is at most p. -/
def countLe (recs : List Bytes) (p : Nat) : Nat :=
  recs.countP (fun r => decide (getPrefix r ≤ p))

/-- A well-formed 16-byte identifier: 16 entries, each a byte value. -/
def ValidId (id : Bytes) : Prop := id.length = kIdLength ∧ ∀ b ∈ id, b < 256

instance (id : Bytes) : Decidable (ValidId id) := by
  unfold ValidId
  infer_instance

/-! ## RPI derivation (MatchingHelper::GenerateIds) -/

/-- Modelled from the spec: the external cryptographic primitives of section
4.1 (OpenSSL HKDF-SHA256 and AES-128 are not part of the sources). hkdf takes
the input key material and the info bytes (the salt is always empty) and may
fail; aesInitOk models failure of the AES-ECB context initialisation for a
given key; aesBlock is the AES-128 block encryption, applied to each 16-byte
block of an ECB pass. -/
structure CryptoPrims where
  hkdf : Bytes → Bytes → Option Bytes
  aesInitOk : Bytes → Bool
  aesBlock : Bytes → Bytes → Bytes

/-- Splitting a buffer into 16-byte ECB blocks, with a structural fuel bound
(one list element of fuel per byte, enough since every step consumes 16). -/
def chunksAux : Nat → Bytes → List Bytes
  | 0, _ => []
  | _, [] => []
  | n + 1, l => l.take kIdLength :: chunksAux n (l.drop kIdLength)

def chunks16 (l : Bytes) : List Bytes := chunksAux l.length l

/-- The AES input scratch buffer as GenerateIds fills it: kIdPerKey blocks,
each the 12 padded bytes followed by the little-endian uint32
en_interval_number, which starts at rolling_start_number and increments per
block (uint32 arithmetic wraps modulo 2^32). -/
def aesInputStorage (rolling_start_number : Nat) : Bytes :=
  (List.range kIdPerKey).flatMap
    (fun i => kRpiPaddedData ++ le32 ((rolling_start_number + i) % 4294967296))

/-- Modelled from the spec: one EVP_EncryptUpdate call in ECB mode encrypts
the buffer block by block with the AES-128 block cipher (section 4.1,
aes128_ecb_encrypt_blocks). -/
def ecbEncrypt (prims : CryptoPrims) (key buf : Bytes) : Bytes :=
  (chunks16 buf).flatMap (prims.aesBlock key)

/-- MatchingHelper::GenerateIds: derive the RPIK via
HKDF(tek, no salt, "EN-RPIK", 16), initialise AES-128-ECB with it, write the
interval numbers into the scratch buffer and encrypt it in one ECB pass.
none models the C function returning false on a primitive failure. -/
def GenerateIds (prims : CryptoPrims) (diagnosis_key : Bytes)
    (rolling_start_number : Nat) : Option Bytes :=
  match prims.hkdf (diagnosis_key.take kTekLength) kHkdfInfo with
  | none => none
  | some rpi_key =>
      if prims.aesInitOk rpi_key then
        some (ecbEncrypt prims rpi_key (aesInputStorage rolling_start_number))
      else none

/-- The parsed TEK record (the fields of the generated nanopb struct that the
core reads). -/
structure TemporaryExposureKeyNano where
  key_data : Bytes
  rolling_start_interval_number : Int
  rolling_period : Int
  deriving DecidableEq

/-- static_cast of the int32 rolling start to uint32
(matching_helper.cc line 117). -/
def toU32 (i : Int) : Nat := (i % 4294967296).toNat

/-- GenerateIds as Matching invokes it on a parsed key: only the key bytes and
the rolling start number are passed; rolling_period is not consulted. -/
def deriveForKey (prims : CryptoPrims) (k : TemporaryExposureKeyNano) : Option Bytes :=
  GenerateIds prims k.key_data (toU32 k.rolling_start_interval_number)

/-- Degenerate concrete primitives used only to instantiate witnesses. -/
def testPrims : CryptoPrims :=
  { hkdf := fun _ _ => some (List.replicate 16 0)
    aesInitOk := fun _ => true
    aesBlock := fun _ _ => List.replicate 16 0 }

/-! ## The matching loops (MatchingHelper::Matching / MatchingLegacy) -/

/-- The inner probe loop shared by Matching and MatchingLegacy: walk the
derived ids in kIdLength steps, probing each against the prefix map, and stop
at the first hit (the break). -/
def anyIdHit (m : PrefixIdMap) : List Bytes → Bool
  | [] => false
  | b :: rest => if m.GetIdIndex b ≥ 0 then true else anyIdHit m rest

/-- The number of GetIdIndex probes the inner loop performs before it stops
(the probe that hits is counted). -/
def probeCount (m : PrefixIdMap) : List Bytes → Nat
  | [] => 0
  | b :: rest => if m.GetIdIndex b ≥ 0 then 1 else 1 + probeCount m rest

/-- Whether a parsed key matches: its ids derive successfully and some derived
id is in the prefix map (the composition Matching applies per key). -/
def isMatchedKey (prims : CryptoPrims) (m : PrefixIdMap)
    (key : TemporaryExposureKeyNano) : Bool :=
  match deriveForKey prims key with
  | none => false
  | some ids => anyIdHit m (chunks16 ids)

/-- One iteration of the Matching while loop (matching_helper.cc lines
107-128), given the result the iterator's Next() returned: a null key is
skipped; otherwise last_processed_key_count is incremented (uint32), the ids
are derived (a failed derivation is logged and skipped), and on the first hit
the key is appended to the matched list. -/
def matchingStep (prims : CryptoPrims) (m : PrefixIdMap)
    (st : Nat × List TemporaryExposureKeyNano)
    (yield : Option TemporaryExposureKeyNano) :
    Nat × List TemporaryExposureKeyNano :=
  match yield with
  | none => st
  | some key =>
      let counter := (st.1 + 1) % 4294967296
      match deriveForKey prims key with
      | none => (counter, st.2)
      | some ids =>
          if anyIdHit m (chunks16 ids) then (counter, st.2 ++ [key])
          else (counter, st.2)

/-- The Matching while loop over the sequence of results the key-file iterator
yields, starting from the counter reset to 0 (matching_helper.cc line 99).
Returns the final counter and the matched keys in consumption order. -/
def matchingYields (prims : CryptoPrims) (m : PrefixIdMap)
    (yields : List (Option TemporaryExposureKeyNano)) :
    Nat × List TemporaryExposureKeyNano :=
  yields.foldl (matchingStep prims m) (0, [])

/-- One iteration of the MatchingLegacy for loop over key index i: read the
16 key bytes and the rolling start number, derive, probe, and push the index
on the first hit. -/
def legacyStep (prims : CryptoPrims) (m : PrefixIdMap) (diagnosis_keys : List Bytes)
    (rolling_start_numbers : List Int) (acc : List Nat) (i : Nat) : List Nat :=
  match GenerateIds prims ((diagnosis_keys.getD i []).take kIdLength)
      (toU32 (rolling_start_numbers.getD i 0)) with
  | none => acc
  | some ids => if anyIdHit m (chunks16 ids) then acc ++ [i] else acc

/-- MatchingHelper::MatchingLegacy: a key_count larger than either input array
aborts with null (modelled none) before anything runs; otherwise every key
index below key_count is processed in order. -/
def MatchingLegacy (prims : CryptoPrims) (m : PrefixIdMap)
    (diagnosis_keys : List Bytes) (rolling_start_numbers : List Int)
    (key_count : Nat) : Option (List Nat) :=
  if key_count > diagnosis_keys.length then none
  else if key_count > rolling_start_numbers.length then none
  else some ((List.range key_count).foldl
    (legacyStep prims m diagnosis_keys rolling_start_numbers) [])

/-- The native engine handle state (matching_helper.h). -/
structure MatchingHelper where
  prefix_key_map : PrefixIdMap
  last_processed_key_count : Nat

/-- initNative (matchingjni.cc lines 34-48): a null scan-record array or an
empty one yields the zero handle (modelled none); otherwise a MatchingHelper
is constructed over the records with the counter at 0. -/
def initNative (scan_id_records : Option (List Bytes)) : Option MatchingHelper :=
  match scan_id_records with
  | none => none
  | some records =>
      if records.length ≤ 0 then none
      else some
        { prefix_key_map := PrefixIdMap.build records
          last_processed_key_count := 0 }

/-- The number of non-null results in a yield sequence: the keys the while
loop consumes. -/
def countSome (yields : List (Option TemporaryExposureKeyNano)) : Nat :=
  yields.countP (fun y => y.isSome)

/-- A tiny concrete prefix map used only to instantiate witnesses: one record
of sixteen zero bytes with the one-record table. -/
def testMap : PrefixIdMap :=
  { scan_records := [List.replicate 16 0]
    prefix_end_index := fun _ => 1
    scan_record_size := 1 }

/-- The public operations that touch or could touch the counter, abstracted
over the key material each was given. -/
inductive EngineOp where
  | matchOp (yields : List (Option TemporaryExposureKeyNano))
  | legacyOp (dk : List Bytes) (rsn : List Int) (kc : Nat)

/-- The effect of one public operation on last_processed_key_count: Matching
reruns its loop from a zeroed counter (matching_helper.cc line 99);
MatchingLegacy computes its result without reading or writing the counter
(lines 165-214 never name it). -/
def applyOp (prims : CryptoPrims) (m : PrefixIdMap) (c : Nat) : EngineOp → Nat
  | .matchOp yields => (matchingYields prims m yields).1
  | .legacyOp _ _ _ => c

/-- The engine counter after a sequence of public operations, starting from
counter value c. -/
def runOps (prims : CryptoPrims) (m : PrefixIdMap) (c : Nat) (ops : List EngineOp) : Nat :=
  ops.foldl (applyOp prims m) c

/-- The yield sequence of the most recent match() call of an operation
sequence, when any. -/
def lastMatchYields (ops : List EngineOp) :
    Option (List (Option TemporaryExposureKeyNano)) :=
  (ops.filterMap (fun op => match op with
    | .matchOp y => some y
    | .legacyOp _ _ _ => none)).getLast?

/-! ## The key-file stream decoder (key_file_parser.cc)

The nanopb wire-format routines are not part of the sources; they are
modelled from the spec's description of the length-delimited tagged record
stream (sections 4.3 and 6). The iterator logic itself follows
key_file_parser.cc line by line. -/

/-- Modelled from the spec: base-128 varint decoding (continuation bit 0x80),
value and remaining stream; none on truncation or a varint past 64 bits. -/
def decodeVarintFrom (shift acc : Nat) : Bytes → Option (Nat × Bytes)
  | [] => none
  | b :: rest =>
      if shift ≥ 64 then none
      else if b < 128 then some (acc + b * 2 ^ shift, rest)
      else decodeVarintFrom (shift + 7) (acc + (b - 128) * 2 ^ shift) rest

def decodeVarint (s : Bytes) : Option (Nat × Bytes) := decodeVarintFrom 0 0 s

/-- Modelled from the spec: the keys-tag field number of the export schema
(TemporaryExposureKeyExport.keys; the generated exposure_key_export.pb.h is
not in the sources); the model relies only on it being a fixed nonzero
constant. -/
def kKeysTag : Nat := 7

/-- Modelled from the spec: reading one tag of the record stream, returning
(wire_type, field_number, rest). An empty stream or a malformed tag varint
yields none, which the scan loop treats as end of stream (next_tag 0). -/
def pbDecodeTag (s : Bytes) : Option (Nat × Nat × Bytes) :=
  match decodeVarint s with
  | none => none
  | some (v, rest) => if v / 8 = 0 then none else some (v % 8, v / 8, rest)

/-- Modelled from the spec: skipping one field by wire type (varints by the
continuation bit, length-delimited payloads by declared length, fixed 32/64 by
width); a truncated or unknown field consumes the rest of the stream. -/
def pbSkipField (wire : Nat) (s : Bytes) : Bytes :=
  if wire = 0 then
    match decodeVarint s with
    | none => []
    | some (_, rest) => rest
  else if wire = 2 then
    match decodeVarint s with
    | none => []
    | some (len, rest) => rest.drop len
  else if wire = 5 then s.drop 4
  else if wire = 1 then s.drop 8
  else []

/-- The scan loop body of ReadUntilNextKeyTagOrEnd (key_file_parser.cc lines
53-63): read tags, stopping at a keys tag or end of stream, skipping every
other field. Fuel is one unit per stream byte (each iteration consumes at
least the tag byte), enough for every run. -/
def readUntilAux (prims_fuel : Nat) (s : Bytes) : Nat × Bytes :=
  match prims_fuel with
  | 0 => (0, s)
  | fuel + 1 =>
      match pbDecodeTag s with
      | none => (0, [])
      | some (wire, tag, rest) =>
          if tag = kKeysTag then (tag, rest)
          else readUntilAux fuel (pbSkipField wire rest)

/-- ReadUntilNextKeyTagOrEnd, from a given stream position. -/
def readUntilNextKeyTagOrEnd (s : Bytes) : Nat × Bytes :=
  readUntilAux (s.length + 1) s

/-- The default-initialised nanopb TEK struct: empty key bytes and the proto
defaults (rolling_period defaults to 144). -/
def tekInitDefault : TemporaryExposureKeyNano := ⟨[], 0, 144⟩

/-- Two's-complement reading of a varint into an int32 field. -/
def toInt32 (v : Nat) : Int :=
  if v % 4294967296 < 2147483648 then ((v % 4294967296 : Nat) : Int)
  else ((v % 4294967296 : Nat) : Int) - 4294967296

/-- Modelled from the spec: decoding the fields of one TEK submessage payload
(the generated nanopb descriptor is not in the sources). Per the spec the
submessage carries 16-byte key_data (field 1), int32 varint fields among them
rolling_start_interval_number (field 3) and rolling_period (field 4), and
other metadata fields that are skipped; truncated or malformed content fails.
Fuel is one unit per payload byte. -/
def decodeTekFieldsAux : Nat → TemporaryExposureKeyNano → Bytes →
    Option TemporaryExposureKeyNano
  | _, k, [] => some k
  | 0, _, _ :: _ => none
  | fuel + 1, k, b :: srest =>
      match pbDecodeTag (b :: srest) with
      | none => none
      | some (wire, fld, rest) =>
          if fld = 1 ∧ wire = 2 then
            match decodeVarint rest with
            | none => none
            | some (len, rest2) =>
                if len ≤ 16 ∧ len ≤ rest2.length then
                  decodeTekFieldsAux fuel { k with key_data := rest2.take len }
                    (rest2.drop len)
                else none
          else if wire = 0 then
            match decodeVarint rest with
            | none => none
            | some (v, rest2) =>
                if fld = 3 then
                  decodeTekFieldsAux fuel
                    { k with rolling_start_interval_number := toInt32 v } rest2
                else if fld = 4 then
                  decodeTekFieldsAux fuel { k with rolling_period := toInt32 v } rest2
                else decodeTekFieldsAux fuel k rest2
          else if wire = 2 then
            match decodeVarint rest with
            | none => none
            | some (len, rest2) =>
                if len ≤ rest2.length then decodeTekFieldsAux fuel k (rest2.drop len)
                else none
          else if wire = 5 then
            if 4 ≤ rest.length then decodeTekFieldsAux fuel k (rest.drop 4) else none
          else if wire = 1 then
            if 8 ≤ rest.length then decodeTekFieldsAux fuel k (rest.drop 8) else none
          else none

/-- Modelled from the spec: pb_decode_delimited reads the varint length and
decodes the submessage from exactly that many bytes; whether or not the inner
decode succeeds, the enclosing stream continues just after the declared
length (closing the substream skips its remainder). A truncated length varint
or a length past end of file consumes the stream. -/
def pbDecodeDelimited (s : Bytes) : Option TemporaryExposureKeyNano × Bytes :=
  match decodeVarint s with
  | none => (none, [])
  | some (len, rest) =>
      if len ≤ rest.length then
        (decodeTekFieldsAux len tekInitDefault (rest.take len), rest.drop len)
      else (none, [])

/-- The iterator state: the stream position and the next_tag_ field. -/
structure KeyFileIterator where
  stream : Bytes
  next_tag : Nat
  deriving DecidableEq

/-- The bytes of the literal header "EK Export v1    "
(key_file_parser.h, kFileHeader; 12 characters and 4 trailing spaces). -/
def kFileHeader : Bytes :=
  [69, 75, 32, 69, 120, 112, 111, 114, 116, 32, 118, 49, 32, 32, 32, 32]

def kFileHeaderSize : Nat := 16

/-- What VerifyHeader's 16-byte read leaves in its zero-initialised buffer
(the pb_read result is not checked; a short file leaves zero padding). -/
def headerRead (s : Bytes) : Bytes :=
  s.take kFileHeaderSize ++ List.replicate (kFileHeaderSize - s.length) 0

/-- VerifyHeader (key_file_parser.cc lines 20-29): memcmp of the bytes read
against the literal. -/
def VerifyHeader (s : Bytes) : Bool := decide (headerRead s = kFileHeader)

/-- CreateKeyFileIterator (key_file_parser.cc lines 31-51): verify the header,
then position the iterator at the first keys tag; nullptr (modelled none) on
header mismatch. -/
def CreateKeyFileIterator (key_file : Bytes) : Option KeyFileIterator :=
  if VerifyHeader key_file then
    some { stream := (readUntilNextKeyTagOrEnd (key_file.drop kFileHeaderSize)).2
           next_tag := (readUntilNextKeyTagOrEnd (key_file.drop kFileHeaderSize)).1 }
  else none

/-- HasNext: next_tag_ != 0 (key_file_parser.h line 57). -/
def KeyFileIterator.HasNext (it : KeyFileIterator) : Bool := it.next_tag ≠ 0

/-- Next/ReadNextKey (key_file_parser.cc lines 65-80): an unexpected tag or a
failed submessage decode returns nullptr; only a successful decode rescans for
the next keys tag — on failure next_tag_ keeps its stale value and the stream
stays where pb_decode_delimited left it. -/
def KeyFileIterator.Next (it : KeyFileIterator) :
    Option TemporaryExposureKeyNano × KeyFileIterator :=
  if it.next_tag ≠ kKeysTag then (none, it)
  else
    match pbDecodeDelimited it.stream with
    | (none, s2) => (none, { stream := s2, next_tag := it.next_tag })
    | (some key, s2) =>
        (some key,
          { stream := (readUntilNextKeyTagOrEnd s2).2
            next_tag := (readUntilNextKeyTagOrEnd s2).1 })

/-- The per-source while loop of Matching (matching_helper.cc lines 107-128),
with explicit fuel: the C loop has no bound of its own, and a wedged iterator
(HasNext forever true, Next forever failing) makes it spin — the model then
exhausts its fuel and stops. -/
def sourceLoop (prims : CryptoPrims) (m : PrefixIdMap) :
    Nat → KeyFileIterator → Nat × List TemporaryExposureKeyNano →
    Nat × List TemporaryExposureKeyNano
  | 0, _, st => st
  | fuel + 1, it, st =>
      if it.HasNext then
        sourceLoop prims m fuel it.Next.2 (matchingStep prims m st it.Next.1)
      else st

/-- Processing one source of Matching: create the iterator, skipping the
source on open failure, then run the while loop (fuel one unit per byte). -/
def processSource (prims : CryptoPrims) (m : PrefixIdMap)
    (st : Nat × List TemporaryExposureKeyNano) (key_file : Bytes) :
    Nat × List TemporaryExposureKeyNano :=
  match CreateKeyFileIterator key_file with
  | none => st
  | some it => sourceLoop prims m (key_file.length + 1) it st

/-- MatchingHelper::Matching over byte-level sources: reset the counter to 0,
then process the sources in order. -/
def Matching (prims : CryptoPrims) (m : PrefixIdMap) (key_files : List Bytes) :
    Nat × List TemporaryExposureKeyNano :=
  key_files.foldl (processSource prims m) (0, [])

/-- The results of n consecutive Next() calls. -/
def nextResults (it : KeyFileIterator) : Nat → List (Option TemporaryExposureKeyNano)
  | 0 => []
  | n + 1 => it.Next.1 :: nextResults it.Next.2 n

/-- Iterating Next() n times, keeping the final iterator state. -/
def advanceN (it : KeyFileIterator) : Nat → KeyFileIterator
  | 0 => it
  | n + 1 => advanceN it.Next.2 n

/-- The E6 test file: the header followed by three keys-tag records (tag byte
58 = field 7, wire type 2); the first and third are well-formed TEK
submessages (key bytes 170 and 187 repeated 16 times, start 0, rolling_period
144), the second declares a 5-byte payload whose key_data field announces 16
bytes but holds 3 — its decode fails. -/
def e6File : Bytes :=
  kFileHeader ++ ([58, 23, 10, 16] ++ List.replicate 16 170 ++ [24, 0, 32, 144, 1])
    ++ [58, 5, 10, 16, 1, 2, 3]
    ++ ([58, 23, 10, 16] ++ List.replicate 16 187 ++ [24, 0, 32, 144, 1])

/-! ## Lemmas and claim theorems -/

theorem countLe_cons (r : Bytes) (recs : List Bytes) (p : Nat) :
    countLe (r :: recs) p = countLe recs p + (if getPrefix r ≤ p then 1 else 0) := by
  simp [countLe, List.countP_cons]

theorem countLe_le_length (recs : List Bytes) (p : Nat) : countLe recs p ≤ recs.length :=
  List.countP_le_length _

theorem countLe_mono (recs : List Bytes) {p q : Nat} (h : p ≤ q) :
    countLe recs p ≤ countLe recs q := by
  refine List.countP_mono_left (fun r _ hr => ?_)
  simp only [decide_eq_true_eq] at hr ⊢
  omega

/-- Characterisation of the constructor's sweep loop: below the initial cursor
the table is untouched; between the initial and final cursor, slot p holds the
starting index plus the number of swept records with prefix at most p; the final
cursor bounds every swept prefix. -/
theorem buildPrefixLoop_spec (rest : List Bytes) (i : Nat) (A : Nat → Nat) (lp : Nat)
    (hsort : rest.Pairwise (fun a b => getPrefix a ≤ getPrefix b))
    (hlo : ∀ r ∈ rest, lp ≤ getPrefix r) :
    (∀ p, p < lp → (buildPrefixLoop rest i (A, lp)).1 p = A p) ∧
    (∀ p, lp ≤ p → p < (buildPrefixLoop rest i (A, lp)).2 →
      (buildPrefixLoop rest i (A, lp)).1 p = i + countLe rest p) ∧
    (∀ r ∈ rest, getPrefix r ≤ (buildPrefixLoop rest i (A, lp)).2) ∧
    lp ≤ (buildPrefixLoop rest i (A, lp)).2 := by
  induction rest generalizing i A lp with
  | nil =>
      refine ⟨fun p _ => rfl, fun p h1 h2 => absurd (lt_of_le_of_lt h1 h2) (lt_irrefl _), ?_, ?_⟩
      · intro r hr; exact absurd hr (List.not_mem_nil r)
      · exact le_refl _
  | cons r tail ih =>
      have hq : lp ≤ getPrefix r := hlo r (List.mem_cons_self r tail)
      have hmax : max lp (getPrefix r) = getPrefix r := Nat.max_eq_right hq
      have htail_sort : tail.Pairwise (fun a b => getPrefix a ≤ getPrefix b) :=
        (List.pairwise_cons.mp hsort).2
      have hhead : ∀ b ∈ tail, getPrefix r ≤ getPrefix b :=
        (List.pairwise_cons.mp hsort).1
      have hstep : buildPrefixLoop (r :: tail) i (A, lp) =
          buildPrefixLoop tail (i + 1) (fillUpTo A lp (getPrefix r) i, getPrefix r) := by
        simp [buildPrefixLoop, hmax]
      obtain ⟨ih1, ih2, ih3, ih4⟩ :=
        ih (i + 1) (fillUpTo A lp (getPrefix r) i) (getPrefix r) htail_sort hhead
      rw [hstep]
      refine ⟨?_, ?_, ?_, ?_⟩
      · intro p hp
        rw [ih1 p (lt_of_lt_of_le hp hq)]
        simp only [fillUpTo]
        rw [if_neg]
        omega
      · intro p hp1 hp2
        by_cases hcase : p < getPrefix r
        · rw [ih1 p hcase]
          have hz : countLe tail p = 0 := by
            rw [countLe, List.countP_eq_zero]
            intro a ha
            have := hhead a ha
            simp only [decide_eq_true_eq]
            omega
          rw [countLe_cons, hz]
          simp only [fillUpTo]
          rw [if_pos ⟨hp1, hcase⟩, if_neg (by omega)]
          omega
        · have hge : getPrefix r ≤ p := by omega
          rw [ih2 p hge hp2, countLe_cons, if_pos hge]
          omega
      · intro a ha
        rcases List.mem_cons.mp ha with h | h
        · subst h; exact ih4
        · exact ih3 a h
      · exact le_trans hq ih4

/-- For sorted records, the finished prefix_end_index table counts, at every
in-range slot p, the records whose prefix is at most p. -/
theorem mkPrefixEnd_eq_countLe (recs : List Bytes)
    (hsort : recs.Pairwise (fun a b => getPrefix a ≤ getPrefix b))
    (p : Nat) (hp : p < kIdPrefixIndexSize) :
    mkPrefixEnd recs p = countLe recs p := by
  obtain ⟨h1, h2, h3, _⟩ :=
    buildPrefixLoop_spec recs 0 (fun _ => 0) 0 hsort (fun r _ => Nat.zero_le _)
  show fillUpTo (buildPrefixLoop recs 0 ((fun _ => 0), 0)).1
      (buildPrefixLoop recs 0 ((fun _ => 0), 0)).2 kIdPrefixIndexSize recs.length p
      = countLe recs p
  by_cases hcase : p < (buildPrefixLoop recs 0 ((fun _ => 0), 0)).2
  · simp only [fillUpTo]
    rw [if_neg (by omega)]
    rw [h2 p (Nat.zero_le _) hcase]
    omega
  · simp only [fillUpTo]
    rw [if_pos ⟨by omega, hp⟩]
    rw [countLe, Eq.comm, List.countP_eq_length]
    intro a ha
    have := h3 a ha
    simp only [decide_eq_true_eq]
    omega

theorem sortByPrefix_perm (recs : List Bytes) : (sortByPrefix recs).Perm recs :=
  List.mergeSort_perm recs _

theorem sortByPrefix_sorted (recs : List Bytes) :
    (sortByPrefix recs).Pairwise (fun a b => getPrefix a ≤ getPrefix b) := by
  have h := @List.sorted_mergeSort Bytes
    (fun a b : Bytes => decide (getPrefix a ≤ getPrefix b))
    (fun a b c hab hbc => by
      simp only [decide_eq_true_eq] at hab hbc ⊢
      omega)
    (fun a b => by
      simp only [Bool.or_eq_true, decide_eq_true_eq]
      omega)
    recs
  refine h.imp ?_
  intro a b hab
  simpa using hab

/-- In a list sorted by prefix, the element at position i has prefix at most p
exactly when i lies below the count of elements with prefix at most p. -/
theorem sorted_get_le_iff (recs : List Bytes)
    (hsort : recs.Pairwise (fun a b => getPrefix a ≤ getPrefix b))
    (p : Nat) (i : Nat) (hi : i < recs.length) :
    getPrefix (recs.get ⟨i, hi⟩) ≤ p ↔ i < countLe recs p := by
  induction recs generalizing i with
  | nil => simp at hi
  | cons r tail ih =>
      have hhead : ∀ b ∈ tail, getPrefix r ≤ getPrefix b :=
        (List.pairwise_cons.mp hsort).1
      have htail : tail.Pairwise (fun a b => getPrefix a ≤ getPrefix b) :=
        (List.pairwise_cons.mp hsort).2
      cases i with
      | zero =>
          simp only [List.get]
          rw [countLe_cons]
          constructor
          · intro h
            rw [if_pos h]
            omega
          · intro h
            by_contra hcon
            rw [if_neg hcon] at h
            have hz : countLe tail p = 0 := by
              rw [countLe, List.countP_eq_zero]
              intro a ha
              have := hhead a ha
              simp only [decide_eq_true_eq]
              omega
            omega
      | succ j =>
          have hj : j < tail.length := by simpa using hi
          have := ih htail j hj
          simp only [List.get]
          rw [countLe_cons]
          by_cases hr : getPrefix r ≤ p
          · rw [if_pos hr]
            omega
          · rw [if_neg hr]
            have hz : countLe tail p = 0 := by
              rw [countLe, List.countP_eq_zero]
              intro a ha
              have := hhead a ha
              simp only [decide_eq_true_eq]
              omega
            constructor
            · intro h
              exfalso
              have hge := hhead _ (List.get_mem tail j hj)
              omega
            · intro h
              omega

/-- Every result of the linear scan is either NOT_FOUND or the index of a
position in range whose record matches the probed id on the first 16 bytes. -/
theorem scanLoop_result (recs : List Bytes) (id : Bytes) (s e : Nat) :
    scanLoop recs id s e = -1 ∨
    ∃ j, s ≤ j ∧ j < e ∧ scanLoop recs id s e = Int.ofNat j ∧
      (recs.getD j []).take kIdLength = id.take kIdLength := by
  rw [scanLoop]
  generalize hfuel : e - s = n
  induction n generalizing s with
  | zero => exact Or.inl rfl
  | succ k ih =>
      have hlt : s < e := by omega
      have hstep : scanLoopAux recs id s (k + 1) =
          if (recs.getD s []).take kIdLength = id.take kIdLength then Int.ofNat s
          else scanLoopAux recs id (s + 1) k := rfl
      rw [hstep]
      by_cases hm : (recs.getD s []).take kIdLength = id.take kIdLength
      · rw [if_pos hm]
        exact Or.inr ⟨s, le_refl s, hlt, rfl, hm⟩
      · rw [if_neg hm]
        rcases ih (s + 1) (by omega) with h | ⟨j, hj1, hj2, hj3, hj4⟩
        · exact Or.inl h
        · exact Or.inr ⟨j, by omega, hj2, hj3, hj4⟩

/-- The linear scan succeeds whenever some position in range matches. -/
theorem scanLoop_finds (recs : List Bytes) (id : Bytes) (s e : Nat)
    (h : ∃ j, s ≤ j ∧ j < e ∧ (recs.getD j []).take kIdLength = id.take kIdLength) :
    scanLoop recs id s e ≠ -1 := by
  obtain ⟨j, hj1, hj2, hj3⟩ := h
  rw [scanLoop]
  generalize hfuel : e - s = n
  induction n generalizing s with
  | zero => omega
  | succ k ih =>
      have hstep : scanLoopAux recs id s (k + 1) =
          if (recs.getD s []).take kIdLength = id.take kIdLength then Int.ofNat s
          else scanLoopAux recs id (s + 1) k := rfl
      rw [hstep]
      by_cases hm : (recs.getD s []).take kIdLength = id.take kIdLength
      · rw [if_pos hm]
        intro hcon
        exact absurd hcon (by simp)
      · rw [if_neg hm]
        have hjs : s ≠ j := fun hc => hm (hc ▸ hj3)
        exact ih (s + 1) (by omega) (by omega)

theorem getPrefix_lt (id : Bytes) (h : ValidId id) : getPrefix id < kIdPrefixIndexSize := by
  obtain ⟨hlen, hb⟩ := h
  cases id with
  | nil => simp [kIdLength] at hlen
  | cons a t =>
      cases t with
      | nil => simp [kIdLength] at hlen
      | cons b t2 =>
          have ha := hb a (by simp)
          have hbb := hb b (by simp)
          simp only [getPrefix, List.getD_cons_zero, List.getD_cons_succ, kIdPrefixIndexSize]
          omega

/-- In a list sorted by prefix, position i holds a record of prefix exactly p
precisely when i lies in the half-open block delimited by the counts of
records with prefix at most p-1 and at most p. -/
theorem sorted_get_eq_iff (recs : List Bytes)
    (hsort : recs.Pairwise (fun a b => getPrefix a ≤ getPrefix b))
    (p i : Nat) (hi : i < recs.length) :
    getPrefix (recs.get ⟨i, hi⟩) = p ↔
      ((if p = 0 then 0 else countLe recs (p - 1)) ≤ i ∧ i < countLe recs p) := by
  have h1 := sorted_get_le_iff recs hsort p i hi
  by_cases hp : p = 0
  · subst hp
    rw [if_pos rfl]
    constructor
    · intro h
      exact ⟨Nat.zero_le _, h1.mp (le_of_eq h)⟩
    · rintro ⟨-, h⟩
      have := h1.mpr h
      omega
  · rw [if_neg hp]
    have h2 := sorted_get_le_iff recs hsort (p - 1) i hi
    constructor
    · intro h
      refine ⟨?_, h1.mp (le_of_eq h)⟩
      by_contra hcon
      push_neg at hcon
      have := h2.mpr hcon
      omega
    · rintro ⟨hlo, hhi⟩
      have hle := h1.mpr hhi
      have hnot : ¬ getPrefix (recs.get ⟨i, hi⟩) ≤ p - 1 := fun hc => by
        have := h2.mp hc
        omega
      omega

/-! ## Claims C2 and C5: PrefixIdMap correctness and table consistency -/

/-- C2. For every collection R of 16-byte records and every 16-byte identifier
id, the query on the index built from R returns a valid index (not NOT_FOUND,
i.e. not -1) if and only if id is an element of R: every member is found, and
any non-member — whether or not its 2-byte prefix collides with a record —
yields -1. -/
theorem claim_C2 (R : List Bytes) (id : Bytes)
    (hR : ∀ r ∈ R, ValidId r) (hid : ValidId id) :
    (PrefixIdMap.build R).GetIdIndex id ≠ -1 ↔ id ∈ R := by
  have hperm := sortByPrefix_perm R
  have hsort := sortByPrefix_sorted R
  have hpfx : getPrefix id < kIdPrefixIndexSize := getPrefix_lt id hid
  have hG : (PrefixIdMap.build R).GetIdIndex id =
      scanLoop (sortByPrefix R) id
        (if getPrefix id > 0 then mkPrefixEnd (sortByPrefix R) (getPrefix id - 1) else 0)
        (mkPrefixEnd (sortByPrefix R) (getPrefix id)) := rfl
  have hhi : mkPrefixEnd (sortByPrefix R) (getPrefix id)
      = countLe (sortByPrefix R) (getPrefix id) :=
    mkPrefixEnd_eq_countLe _ hsort _ hpfx
  rw [hG]
  constructor
  · intro hne
    rcases scanLoop_result (sortByPrefix R) id _ _ with h | ⟨j, hj1, hj2, hj3, hj4⟩
    · exact absurd h hne
    · rw [hhi] at hj2
      have hjlen : j < (sortByPrefix R).length :=
        lt_of_lt_of_le hj2 (countLe_le_length _ _)
      rw [List.getD_eq_getElem _ _ hjlen] at hj4
      have hmem : (sortByPrefix R)[j] ∈ R :=
        hperm.mem_iff.mp (List.getElem_mem hjlen)
      have hvr := hR _ hmem
      rw [List.take_of_length_le (le_of_eq hvr.1),
          List.take_of_length_le (le_of_eq hid.1)] at hj4
      rw [← hj4]
      exact hmem
  · intro hmem
    have hmem' : id ∈ sortByPrefix R := hperm.mem_iff.mpr hmem
    obtain ⟨⟨i, hilt⟩, hget⟩ := List.mem_iff_get.mp hmem'
    have hple : getPrefix ((sortByPrefix R).get ⟨i, hilt⟩) ≤ getPrefix id :=
      le_of_eq (by rw [hget])
    have hiup : i < countLe (sortByPrefix R) (getPrefix id) :=
      (sorted_get_le_iff _ hsort _ i hilt).mp hple
    have hlo : (if getPrefix id > 0
        then mkPrefixEnd (sortByPrefix R) (getPrefix id - 1) else 0) ≤ i := by
      by_cases hz : getPrefix id > 0
      · rw [if_pos hz, mkPrefixEnd_eq_countLe _ hsort _ (by omega)]
        by_contra hcon
        push_neg at hcon
        have := (sorted_get_le_iff _ hsort (getPrefix id - 1) i hilt).mpr hcon
        rw [hget] at this
        omega
      · rw [if_neg hz]
        exact Nat.zero_le _
    refine scanLoop_finds _ _ _ _ ⟨i, hlo, ?_, ?_⟩
    · rw [hhi]
      exact hiup
    · rw [List.getD_eq_getElem _ _ hilt]
      have : (sortByPrefix R)[i] = id := by
        rw [← hget]
        simp
      rw [this]

/-- Witness for C2 at a concrete input: the sole record is found. -/
theorem claim_C2_witness :
    (∀ r ∈ [List.replicate 16 255], ValidId r) ∧ ValidId (List.replicate 16 255) ∧
    ((PrefixIdMap.build [List.replicate 16 255]).GetIdIndex (List.replicate 16 255) ≠ -1 ↔
      List.replicate 16 255 ∈ [List.replicate 16 255]) :=
  ⟨by decide, by decide, claim_C2 _ _ (by decide) (by decide)⟩

/-- C5. After construction from any valid record collection R, prefix_end_index
is monotonically non-decreasing on its 65536 slots, its last entry equals the
number of records, and for every prefix p the positions in
[prefix_end_index (p-1), prefix_end_index p) (0 for p = 0) hold exactly the
records whose first two bytes read little-endian equal p. -/
theorem claim_C5 (R : List Bytes) (hR : ∀ r ∈ R, ValidId r) :
    (∀ p q, p ≤ q → q < kIdPrefixIndexSize →
      (PrefixIdMap.build R).prefix_end_index p ≤ (PrefixIdMap.build R).prefix_end_index q) ∧
    ((PrefixIdMap.build R).prefix_end_index 65535 = R.length) ∧
    (∀ p, p < kIdPrefixIndexSize →
      ∀ i, ∀ hi : i < (PrefixIdMap.build R).scan_records.length,
        getPrefix ((PrefixIdMap.build R).scan_records.get ⟨i, hi⟩) = p ↔
          ((if p = 0 then 0 else (PrefixIdMap.build R).prefix_end_index (p - 1)) ≤ i ∧
            i < (PrefixIdMap.build R).prefix_end_index p)) := by
  have hperm := sortByPrefix_perm R
  have hsort := sortByPrefix_sorted R
  have htbl : ∀ q, q < kIdPrefixIndexSize →
      (PrefixIdMap.build R).prefix_end_index q = countLe (sortByPrefix R) q :=
    fun q hq => mkPrefixEnd_eq_countLe _ hsort q hq
  refine ⟨?_, ?_, ?_⟩
  · intro p q hpq hq
    rw [htbl p (by omega), htbl q hq]
    exact countLe_mono _ hpq
  · rw [htbl 65535 (by simp [kIdPrefixIndexSize])]
    rw [← hperm.length_eq]
    rw [countLe, List.countP_eq_length]
    intro r hr
    have hv := hR r (hperm.mem_iff.mp hr)
    have := getPrefix_lt r hv
    simp only [decide_eq_true_eq]
    simp only [kIdPrefixIndexSize] at this
    omega
  · intro p hp i hi
    have h := sorted_get_eq_iff (sortByPrefix R) hsort p i hi
    rw [htbl p hp]
    by_cases hz : p = 0
    · subst hz
      simpa using h
    · rw [if_neg hz]
      rw [htbl (p - 1) (by omega)]
      rw [if_neg hz] at h
      exact h

/-- Witness for C5 at a concrete input. -/
theorem claim_C5_witness :
    (∀ r ∈ [List.replicate 16 7], ValidId r) ∧
    ((∀ p q, p ≤ q → q < kIdPrefixIndexSize →
      (PrefixIdMap.build [List.replicate 16 7]).prefix_end_index p ≤
        (PrefixIdMap.build [List.replicate 16 7]).prefix_end_index q) ∧
    ((PrefixIdMap.build [List.replicate 16 7]).prefix_end_index 65535 =
      [List.replicate 16 7].length) ∧
    (∀ p, p < kIdPrefixIndexSize →
      ∀ i, ∀ hi : i < (PrefixIdMap.build [List.replicate 16 7]).scan_records.length,
        getPrefix ((PrefixIdMap.build [List.replicate 16 7]).scan_records.get ⟨i, hi⟩) = p ↔
          ((if p = 0 then 0
            else (PrefixIdMap.build [List.replicate 16 7]).prefix_end_index (p - 1)) ≤ i ∧
            i < (PrefixIdMap.build [List.replicate 16 7]).prefix_end_index p))) :=
  ⟨by decide, claim_C5 _ (by decide)⟩

theorem chunksAux_flatten (bs : List Bytes) (h : ∀ b ∈ bs, b.length = kIdLength) :
    ∀ fuel, bs.length ≤ fuel → chunksAux fuel bs.flatten = bs := by
  induction bs with
  | nil =>
      intro fuel _
      cases fuel <;> rfl
  | cons b rest ih =>
      intro fuel hfuel
      cases fuel with
      | zero => simp at hfuel
      | succ f =>
          have hb : b.length = kIdLength := h b (by simp)
          have hne : b ++ rest.flatten ≠ [] := by
            intro hc
            have : b = [] := by
              cases b with
              | nil => rfl
              | cons x xs => simp at hc
            rw [this] at hb
            simp [kIdLength] at hb
          show chunksAux (f + 1) (b ++ rest.flatten) = b :: rest
          have hstep : chunksAux (f + 1) (b ++ rest.flatten) =
              (b ++ rest.flatten).take kIdLength ::
                chunksAux f ((b ++ rest.flatten).drop kIdLength) := by
            cases hbr : b ++ rest.flatten with
            | nil => exact absurd hbr hne
            | cons x xs => rfl
          rw [hstep, ← hb, List.take_left, List.drop_left]
          rw [ih (fun c hc => h c (by simp [hc])) f (by simpa using hfuel)]

theorem chunks16_flatten (bs : List Bytes) (h : ∀ b ∈ bs, b.length = kIdLength) :
    chunks16 bs.flatten = bs := by
  refine chunksAux_flatten bs h _ ?_
  rw [List.length_flatten]
  calc bs.length = (bs.map List.length).length := by simp
  _ ≤ (bs.map List.length).sum := by
      refine List.length_le_sum_of_one_le _ ?_
      intro i hi
      obtain ⟨b, hb, hbi⟩ := List.mem_map.mp hi
      rw [← hbi, h b hb]
      simp [kIdLength]

/-- Extracting 16-byte block i from the flattening of length-16 blocks. -/
theorem flatten_extract (bs : List Bytes) (h : ∀ b ∈ bs, b.length = kIdLength) :
    ∀ i, i < bs.length →
      (bs.flatten.drop (kIdLength * i)).take kIdLength = bs.getD i [] := by
  induction bs with
  | nil => intro i hi; simp at hi
  | cons b rest ih =>
      intro i hi
      have hb : b.length = kIdLength := h b (by simp)
      cases i with
      | zero =>
          show ((b ++ rest.flatten).drop (kIdLength * 0)).take kIdLength = b
          rw [Nat.mul_zero, List.drop_zero, ← hb, List.take_left]
      | succ j =>
          show ((b ++ rest.flatten).drop (kIdLength * (j + 1))).take kIdLength
              = rest.getD j []
          have harith : kIdLength * (j + 1) = b.length + kIdLength * j := by
            rw [hb]; ring
          rw [harith, List.drop_append]
          exact ih (fun c hc => h c (by simp [hc])) j (by simpa using hi)

/-! ## Claim C1: GenerateIds derives the 144 RPIs per the EN protocol -/

/-- C1. For every 16-byte TEK and every 32-bit rolling start s, a successful
GenerateIds produces exactly 144 16-byte RPIs, where block i is the AES-128-ECB
encryption, under the key HKDF-SHA256(ikm = tek, empty salt, info = "EN-RPIK",
L = 16), of the plaintext "EN-RPI" ++ six zero bytes ++ little-endian
uint32 of s + i; the derivation never consults the TEK's rolling_period. -/
theorem claim_C1 (prims : CryptoPrims) (tek : Bytes) (s : Nat) (ids : Bytes)
    (haes : ∀ key b, (prims.aesBlock key b).length = kIdLength)
    (hgen : GenerateIds prims tek s = some ids) :
    ∃ rpik, prims.hkdf (tek.take kTekLength) kHkdfInfo = some rpik ∧
      ids.length = kIdPerKey * kIdLength ∧
      (∀ i, i < kIdPerKey →
        (ids.drop (kIdLength * i)).take kIdLength =
          prims.aesBlock rpik (kRpiPaddedData ++ le32 ((s + i) % 4294967296))) ∧
      (∀ rsi rp rp2 : Int, ∀ kd : Bytes,
        deriveForKey prims ⟨kd, rsi, rp⟩ = deriveForKey prims ⟨kd, rsi, rp2⟩) := by
  unfold GenerateIds at hgen
  cases hh : prims.hkdf (tek.take kTekLength) kHkdfInfo with
  | none => rw [hh] at hgen; exact absurd hgen (by simp)
  | some rpik =>
      rw [hh] at hgen
      simp only [] at hgen
      by_cases hai : prims.aesInitOk rpik
      · rw [if_pos hai] at hgen
        have hids : ids = ecbEncrypt prims rpik (aesInputStorage s) :=
          (Option.some.injEq _ _ ▸ hgen).symm
        have hptlen : ∀ n : Nat, (kRpiPaddedData ++ le32 n).length = kIdLength := by
          intro n
          simp [kRpiPaddedData, le32, kIdLength]
        have hchunks : chunks16 (aesInputStorage s) =
            (List.range kIdPerKey).map
              (fun i => kRpiPaddedData ++ le32 ((s + i) % 4294967296)) := by
          rw [aesInputStorage, List.flatMap_def]
          refine chunks16_flatten _ ?_
          intro b hb
          obtain ⟨i, -, rfl⟩ := List.mem_map.mp hb
          exact hptlen _
        have hflat : ids = ((List.range kIdPerKey).map
            (fun i => prims.aesBlock rpik
              (kRpiPaddedData ++ le32 ((s + i) % 4294967296)))).flatten := by
          rw [hids, ecbEncrypt, hchunks, List.flatMap_def, List.map_map]
          rfl
        have hblocklen : ∀ b ∈ (List.range kIdPerKey).map
            (fun i => prims.aesBlock rpik
              (kRpiPaddedData ++ le32 ((s + i) % 4294967296))), b.length = kIdLength := by
          intro b hb
          obtain ⟨i, -, rfl⟩ := List.mem_map.mp hb
          exact haes _ _
        refine ⟨rpik, rfl, ?_, ?_, fun _ _ _ _ => rfl⟩
        · rw [hflat, List.length_flatten]
          have hrep : List.map List.length ((List.range kIdPerKey).map
              (fun i => prims.aesBlock rpik
                (kRpiPaddedData ++ le32 ((s + i) % 4294967296)))) =
              List.replicate kIdPerKey kIdLength := by
            rw [List.eq_replicate_iff]
            constructor
            · simp
            · intro b hb
              obtain ⟨c, hc, rfl⟩ := List.mem_map.mp hb
              exact hblocklen c hc
          rw [hrep, List.sum_replicate, smul_eq_mul]
        · intro i hi
          rw [hflat]
          have hlen : i < ((List.range kIdPerKey).map
              (fun i => prims.aesBlock rpik
                (kRpiPaddedData ++ le32 ((s + i) % 4294967296)))).length := by
            simpa using hi
          rw [flatten_extract _ hblocklen i hlen]
          rw [List.getD_eq_getElem _ _ hlen]
          rw [List.getElem_map]
          rw [List.getElem_range]
      · rw [if_neg hai] at hgen
        exact absurd hgen (by simp)

/-- Witness for C1 at a concrete input. -/
theorem claim_C1_witness :
    (∀ key b, (testPrims.aesBlock key b).length = kIdLength) ∧
    GenerateIds testPrims (List.replicate 16 0) 0 =
      some (ecbEncrypt testPrims (List.replicate 16 0) (aesInputStorage 0)) ∧
    (∃ rpik, testPrims.hkdf ((List.replicate 16 0 : Bytes).take kTekLength) kHkdfInfo
        = some rpik ∧
      (ecbEncrypt testPrims (List.replicate 16 0) (aesInputStorage 0)).length =
        kIdPerKey * kIdLength ∧
      (∀ i, i < kIdPerKey →
        ((ecbEncrypt testPrims (List.replicate 16 0)
            (aesInputStorage 0)).drop (kIdLength * i)).take kIdLength =
          testPrims.aesBlock rpik (kRpiPaddedData ++ le32 ((0 + i) % 4294967296))) ∧
      (∀ rsi rp rp2 : Int, ∀ kd : Bytes,
        deriveForKey testPrims ⟨kd, rsi, rp⟩ = deriveForKey testPrims ⟨kd, rsi, rp2⟩)) :=
  ⟨fun _ _ => rfl, rfl, claim_C1 testPrims _ 0 _ (fun _ _ => rfl) rfl⟩

theorem matchingStep_some (prims : CryptoPrims) (m : PrefixIdMap)
    (st : Nat × List TemporaryExposureKeyNano) (key : TemporaryExposureKeyNano) :
    matchingStep prims m st (some key) =
      ((st.1 + 1) % 4294967296,
        if isMatchedKey prims m key then st.2 ++ [key] else st.2) := by
  have h1 : matchingStep prims m st (some key) =
      (match deriveForKey prims key with
        | none => ((st.1 + 1) % 4294967296, st.2)
        | some ids =>
            if anyIdHit m (chunks16 ids)
            then ((st.1 + 1) % 4294967296, st.2 ++ [key])
            else ((st.1 + 1) % 4294967296, st.2)) := rfl
  rw [h1]
  cases hd : deriveForKey prims key with
  | none => simp [isMatchedKey, hd]
  | some ids =>
      by_cases hhit : anyIdHit m (chunks16 ids)
      · simp [isMatchedKey, hd, hhit]
      · simp [isMatchedKey, hd, hhit]

theorem matchingYields_foldl_snd (prims : CryptoPrims) (m : PrefixIdMap)
    (yields : List (Option TemporaryExposureKeyNano)) :
    ∀ c acc, (yields.foldl (matchingStep prims m) (c, acc)).2 =
      acc ++ (yields.filterMap id).filter (fun k => isMatchedKey prims m k) := by
  induction yields with
  | nil => intro c acc; simp
  | cons y rest ih =>
      intro c acc
      cases y with
      | none =>
          show (rest.foldl (matchingStep prims m) (c, acc)).2 = _
          rw [ih c acc]
          simp
      | some key =>
          have hfm : (List.filterMap id (some key :: rest)) = key :: rest.filterMap id := by
            simp
          rw [List.foldl_cons, hfm, matchingStep_some]
          by_cases hmk : isMatchedKey prims m key
          · rw [if_pos hmk, List.filter_cons_of_pos (by simpa using hmk)]
            rw [ih _ _]
            simp
          · rw [if_neg hmk, List.filter_cons_of_neg (by simpa using hmk)]
            exact ih _ _

theorem matchingYields_matched (prims : CryptoPrims) (m : PrefixIdMap)
    (yields : List (Option TemporaryExposureKeyNano)) :
    (matchingYields prims m yields).2 =
      (yields.filterMap id).filter (fun k => isMatchedKey prims m k) := by
  rw [matchingYields, matchingYields_foldl_snd]
  simp

theorem matchingYields_foldl_fst (prims : CryptoPrims) (m : PrefixIdMap)
    (yields : List (Option TemporaryExposureKeyNano)) :
    ∀ c acc, c < 4294967296 →
      (yields.foldl (matchingStep prims m) (c, acc)).1 =
        (c + countSome yields) % 4294967296 := by
  induction yields with
  | nil =>
      intro c acc hc
      simp [countSome]
      omega
  | cons y rest ih =>
      intro c acc hc
      cases y with
      | none =>
          show (rest.foldl (matchingStep prims m) (c, acc)).1 = _
          rw [ih c acc hc]
          simp [countSome, List.countP_cons]
      | some key =>
          have hcs : countSome (some key :: rest) = countSome rest + 1 := by
            simp [countSome, List.countP_cons]
          rw [List.foldl_cons, hcs, matchingStep_some]
          rw [ih _ _ (Nat.mod_lt _ (by omega))]
          rw [Nat.mod_add_mod]
          omega

theorem matchingYields_counter (prims : CryptoPrims) (m : PrefixIdMap)
    (yields : List (Option TemporaryExposureKeyNano)) :
    (matchingYields prims m yields).1 = countSome yields % 4294967296 := by
  rw [matchingYields, matchingYields_foldl_fst prims m yields 0 [] (by omega)]
  rw [Nat.zero_add]

theorem legacyStep_eq (prims : CryptoPrims) (m : PrefixIdMap)
    (dk : List Bytes) (rsn : List Int) (acc : List Nat) (i : Nat) :
    legacyStep prims m dk rsn acc i =
      if isMatchedKey prims m ⟨(dk.getD i []).take kIdLength, rsn.getD i 0, 144⟩
      then acc ++ [i] else acc := by
  have h1 : legacyStep prims m dk rsn acc i =
      (match GenerateIds prims ((dk.getD i []).take kIdLength)
          (toU32 (rsn.getD i 0)) with
        | none => acc
        | some ids => if anyIdHit m (chunks16 ids) then acc ++ [i] else acc) := rfl
  rw [h1]
  have hmk : isMatchedKey prims m ⟨(dk.getD i []).take kIdLength, rsn.getD i 0, 144⟩ =
      (match GenerateIds prims ((dk.getD i []).take kIdLength) (toU32 (rsn.getD i 0)) with
        | none => false
        | some ids => anyIdHit m (chunks16 ids)) := rfl
  cases hd : GenerateIds prims ((dk.getD i []).take kIdLength) (toU32 (rsn.getD i 0)) with
  | none =>
      rw [hd] at hmk
      rw [hmk]
      rfl
  | some ids =>
      rw [hd] at hmk
      rw [hmk]

theorem legacy_foldl_spec (prims : CryptoPrims) (m : PrefixIdMap)
    (dk : List Bytes) (rsn : List Int) (l : List Nat) :
    ∀ acc : List Nat, l.foldl (legacyStep prims m dk rsn) acc =
      acc ++ l.filter (fun i =>
        isMatchedKey prims m ⟨(dk.getD i []).take kIdLength, rsn.getD i 0, 144⟩) := by
  induction l with
  | nil => intro acc; simp
  | cons i rest ih =>
      intro acc
      rw [List.foldl_cons, legacyStep_eq]
      by_cases hmk : isMatchedKey prims m ⟨(dk.getD i []).take kIdLength, rsn.getD i 0, 144⟩
      · rw [if_pos hmk, List.filter_cons_of_pos (by simpa using hmk), ih]
        simp
      · rw [if_neg hmk, List.filter_cons_of_neg (by simpa using hmk), ih]

/-! ## Claims C6, C9, C10 -/

/-- C6. Per processed TEK, the probe loop stops at the first of the 144 ids
that hits (no further id of that TEK is probed), and the TEK is appended
exactly once, so a TEK matched by several of its RPIs or against duplicate
scan records appears once per occurrence of the TEK in the input; likewise
the legacy path pushes each input index at most once. -/
theorem claim_C6 (prims : CryptoPrims) (m : PrefixIdMap) :
    (∀ yields, ∀ k : TemporaryExposureKeyNano,
      (matchingYields prims m yields).2.count k =
        if isMatchedKey prims m k then (yields.filterMap id).count k else 0) ∧
    (∀ blocks : List Bytes, ∀ j, ∀ hj : j < blocks.length,
      m.GetIdIndex (blocks.get ⟨j, hj⟩) ≥ 0 →
      (∀ l, ∀ hl : l < blocks.length, l < j → ¬ m.GetIdIndex (blocks.get ⟨l, hl⟩) ≥ 0) →
      probeCount m blocks = j + 1) ∧
    (∀ dk rsn kc idxs, MatchingLegacy prims m dk rsn kc = some idxs →
      idxs.Nodup ∧ idxs = (List.range kc).filter
        (fun i => isMatchedKey prims m ⟨(dk.getD i []).take kIdLength, rsn.getD i 0, 144⟩)) := by
  refine ⟨?_, ?_, ?_⟩
  · intro yields k
    rw [matchingYields_matched]
    by_cases hmk : isMatchedKey prims m k
    · rw [if_pos hmk]
      exact List.count_filter (by simpa using hmk)
    · rw [if_neg hmk]
      rw [List.count_eq_zero]
      intro hc
      rw [List.mem_filter] at hc
      exact hmk (by simpa using hc.2)
  · intro blocks
    induction blocks with
    | nil => intro j hj; simp at hj
    | cons b rest ih =>
        intro j hj hhit hfirst
        cases j with
        | zero =>
            show (if m.GetIdIndex b ≥ 0 then 1 else 1 + probeCount m rest) = 1
            rw [if_pos (show m.GetIdIndex b ≥ 0 from hhit)]
        | succ jj =>
            have hnb : ¬ m.GetIdIndex b ≥ 0 := hfirst 0 (by simp) (by omega)
            show (if m.GetIdIndex b ≥ 0 then 1 else 1 + probeCount m rest) = jj + 1 + 1
            rw [if_neg hnb]
            have hres := ih jj (by simpa using hj) hhit
              (fun l hl hlj => hfirst (l + 1) (by simpa using hl) (by omega))
            omega
  · intro dk rsn kc idxs h
    unfold MatchingLegacy at h
    by_cases h1 : kc > dk.length
    · rw [if_pos h1] at h
      exact absurd h (by simp)
    · rw [if_neg h1] at h
      by_cases h2 : kc > rsn.length
      · rw [if_pos h2] at h
        exact absurd h (by simp)
      · rw [if_neg h2] at h
        have hidxs : idxs = (List.range kc).filter (fun i =>
            isMatchedKey prims m ⟨(dk.getD i []).take kIdLength, rsn.getD i 0, 144⟩) := by
          have hspec := legacy_foldl_spec prims m dk rsn (List.range kc) []
          rw [hspec] at h
          have hmain := Option.some.inj h
          rw [List.nil_append] at hmain
          exact hmain.symm
        exact ⟨hidxs ▸ List.Nodup.filter _ (List.nodup_range kc), hidxs⟩

/-- Witness for C6: the probe-break clause at a concrete one-block input. -/
theorem claim_C6_witness :
    testMap.GetIdIndex (List.replicate 16 0) ≥ 0 ∧
    probeCount testMap [List.replicate 16 0] = 0 + 1 :=
  ⟨by decide,
    (claim_C6 testPrims testMap).2.1 [List.replicate 16 0] 0 (by decide) (by decide)
      (fun l hl hc => absurd hc (by omega))⟩

/-- C9. A legacy call whose key_count exceeds the length of either input array
aborts immediately with the null (empty) result, whatever the primitives and
the index: no key is derived or probed. -/
theorem claim_C9 (prims : CryptoPrims) (m : PrefixIdMap) (dk : List Bytes)
    (rsn : List Int) (kc : Nat)
    (h : kc > dk.length ∨ kc > rsn.length) :
    MatchingLegacy prims m dk rsn kc = none := by
  unfold MatchingLegacy
  rcases h with h | h
  · rw [if_pos h]
  · by_cases h2 : kc > dk.length
    · rw [if_pos h2]
    · rw [if_neg h2, if_pos h]

/-- Witness for C9 at a concrete input. -/
theorem claim_C9_witness :
    (1 > ([] : List Bytes).length ∨ 1 > ([] : List Int).length) ∧
    MatchingLegacy testPrims testMap [] [] 1 = none :=
  ⟨by decide, claim_C9 testPrims testMap [] [] 1 (by decide)⟩

/-- C10. initNative fails (zero handle) on a null scan-record collection and on
an empty one, so every successfully constructed engine holds at least one scan
record in its prefix map. -/
theorem claim_C10 :
    initNative none = none ∧ initNative (some []) = none ∧
    (∀ s e, initNative s = some e → 1 ≤ e.prefix_key_map.scan_records.length) := by
  refine ⟨rfl, rfl, ?_⟩
  intro s e h
  cases s with
  | none => exact absurd h (by simp [initNative])
  | some records =>
      have h2 : (if records.length ≤ 0 then none
          else some
            { prefix_key_map := PrefixIdMap.build records
              last_processed_key_count := 0 : MatchingHelper }) = some e := h
      by_cases hlen : records.length ≤ 0
      · rw [if_pos hlen] at h2
        exact absurd h2 (by simp)
      · rw [if_neg hlen] at h2
        have he : e = { prefix_key_map := PrefixIdMap.build records
                        last_processed_key_count := 0 } :=
          (Option.some.injEq _ _ ▸ h2).symm
        rw [he]
        show 1 ≤ (sortByPrefix records).length
        rw [(sortByPrefix_perm records).length_eq]
        omega

/-- Witness for C10 at a concrete input. -/
theorem claim_C10_witness :
    initNative (some [List.replicate 16 3]) =
      some { prefix_key_map := PrefixIdMap.build [List.replicate 16 3]
             last_processed_key_count := 0 } ∧
    1 ≤ ({ prefix_key_map := PrefixIdMap.build [List.replicate 16 3]
           last_processed_key_count := 0 : MatchingHelper }).prefix_key_map.scan_records.length :=
  ⟨rfl, claim_C10.2.2 (some [List.replicate 16 3]) _ rfl⟩

/-! ## Claim C4 (counter policy) and claim C8 (counter semantics) -/

/-- C4 counterexample: a match run over three keys-tag records of which the
second fails to parse ends with the processed-key counter at 2, not 3: the
increment sits after the null check of the parsed key (matching_helper.cc
lines 109-115), so a key that fails to decode is never counted. -/
theorem claim_C4_counterexample :
    (matchingYields testPrims testMap
      [some ⟨List.replicate 16 0, 0, 144⟩, none,
        some ⟨List.replicate 16 1, 0, 144⟩]).1 = 2 ∧ (2 : Nat) ≠ 3 := by
  constructor
  · rw [matchingYields_counter]
    rfl
  · decide

/-- C4 (amended). The processed-key counter is bumped only after a keys-tag
record parses successfully (the null check precedes the increment): over any
yield sequence the counter ends at the number of successfully parsed keys
(mod 2^32), and in scenario E6 — three records, the second failing to
parse — the first and third keys are processed normally and the counter ends
at 2, not 3. -/
theorem claim_C4 (prims : CryptoPrims) (m : PrefixIdMap)
    (k1 k3 : TemporaryExposureKeyNano) :
    (∀ yields, (matchingYields prims m yields).1 = countSome yields % 4294967296) ∧
    (matchingYields prims m [some k1, none, some k3]).1 = 2 ∧
    (matchingYields prims m [some k1, none, some k3]).2 =
      [k1, k3].filter (fun k => isMatchedKey prims m k) := by
  refine ⟨fun yields => matchingYields_counter prims m yields, ?_, ?_⟩
  · rw [matchingYields_counter]
    rfl
  · rw [matchingYields_matched]
    rfl

/-- C8. The counter reflects only the most recent match() call: after any
operation sequence it equals the number of keys that call consumed (mod 2^32),
independent of everything before it, and it is the starting value when no
match() ran; a legacy call never modifies it. -/
theorem claim_C8 (prims : CryptoPrims) (m : PrefixIdMap) (ops : List EngineOp)
    (c0 : Nat) :
    (runOps prims m c0 ops =
      (match lastMatchYields ops with
        | some y => countSome y % 4294967296
        | none => c0)) ∧
    (∀ c dk rsn kc, applyOp prims m c (.legacyOp dk rsn kc) = c) := by
  refine ⟨?_, fun c dk rsn kc => rfl⟩
  induction ops using List.reverseRecOn with
  | nil => rfl
  | append_singleton init op ih =>
      rw [runOps, List.foldl_append]
      cases op with
      | matchOp y =>
          show (matchingYields prims m y).1 = _
          rw [matchingYields_counter]
          have hlast : lastMatchYields (init ++ [EngineOp.matchOp y]) = some y := by
            rw [lastMatchYields, List.filterMap_append]
            exact List.getLast?_concat _
          rw [hlast]
      | legacyOp dk rsn kc =>
          show List.foldl (applyOp prims m) c0 init = _
          have hlast : lastMatchYields (init ++ [EngineOp.legacyOp dk rsn kc]) =
              lastMatchYields init := by
            rw [lastMatchYields, lastMatchYields, List.filterMap_append]
            simp
          rw [hlast]
          exact ih

/-! ## Claims C3 and C7: decoder failure handling -/

/-- C3 (refuting evaluation). On a source with three keys-tag records whose
second payload fails to parse, the failing Next() leaves next_tag_ stale
(still the keys tag) and does not rescan for the next keys tag, so the third
record is never decoded: the three Next() calls yield the first TEK, a
failure, and another failure — not the third TEK — and the iterator still
reports HasNext afterwards (the matching loop would spin). -/
theorem claim_C3 :
    (CreateKeyFileIterator e6File).map (fun it => nextResults it 3) =
      some [some ⟨List.replicate 16 170, 0, 144⟩, none, none] ∧
    (CreateKeyFileIterator e6File).map (fun it => (advanceN it 2).next_tag) =
      some kKeysTag ∧
    (CreateKeyFileIterator e6File).map (fun it => (advanceN it 3).HasNext) = some true ∧
    (none : Option TemporaryExposureKeyNano) ≠ some ⟨List.replicate 16 187, 0, 144⟩ := by
  exact ⟨by decide, by decide, by decide, by decide⟩

/-- C7. A source whose 16 header bytes differ anywhere from the literal
"EK Export v1    " fails to open (CreateKeyFileIterator is nullptr),
contributes no keys and no counter change, and does not abort the call:
Matching over any source list containing it equals Matching over the same
list without it, so every later source is still processed and its matches
returned. -/
theorem claim_C7 (prims : CryptoPrims) (m : PrefixIdMap) (bad : Bytes)
    (pre post : List Bytes)
    (hdiff : ∃ i, i < kFileHeaderSize ∧ (headerRead bad).getD i 0 ≠ kFileHeader.getD i 0) :
    CreateKeyFileIterator bad = none ∧
    Matching prims m (pre ++ bad :: post) = Matching prims m (pre ++ post) := by
  have hne : headerRead bad ≠ kFileHeader := by
    obtain ⟨i, -, hi⟩ := hdiff
    intro hc
    exact hi (by rw [hc])
  have hv : VerifyHeader bad = false := by
    rw [VerifyHeader, decide_eq_false_iff_not]
    exact hne
  have hopen : CreateKeyFileIterator bad = none := by
    rw [CreateKeyFileIterator, hv]
    rfl
  refine ⟨hopen, ?_⟩
  have hsk : ∀ st : Nat × List TemporaryExposureKeyNano,
      processSource prims m st bad = st := by
    intro st
    have h1 : processSource prims m st bad =
        (match CreateKeyFileIterator bad with
          | none => st
          | some it => sourceLoop prims m (bad.length + 1) it st) := rfl
    rw [h1, hopen]
  rw [Matching, Matching, List.foldl_append, List.foldl_append, List.foldl_cons, hsk]

/-- Witness for C7 at a concrete input: a one-byte source is rejected and a
call over just that source equals a call over no sources. -/
theorem claim_C7_witness :
    (∃ i, i < kFileHeaderSize ∧ (headerRead [0]).getD i 0 ≠ kFileHeader.getD i 0) ∧
    CreateKeyFileIterator [0] = none ∧
    Matching testPrims testMap ([] ++ [0] :: []) = Matching testPrims testMap ([] ++ []) :=
  ⟨⟨0, by decide, by decide⟩,
    claim_C7 testPrims testMap [0] [] [] ⟨0, by decide, by decide⟩⟩

end Exposure
